import Mathlib

/-!
# Verification of the BED interval model (`jcvi/formats/bed.py`)

A shallow embedding of the `BedLine` record and the `Bed` collection from
`src/formats/bed.py`, together with proofs of the specification's claims.

Python strings are modelled by Lean `String`; the handful of Python string
primitives used by the source (`strip`, `split("\t")`, `join`, `int(...)`,
`rstrip('-')`, `s[-1]`, `s[:-1]`) are modelled explicitly below, operating on
the underlying character list so that every definition is executable and
kernel-evaluable.  Python exceptions are modelled by `Except` with one error
constructor per exception kind raised by the source.
-/

deriving instance DecidableEq for Except

/-! ## Python string primitives -/

/-- The whitespace characters stripped by Python's `str.strip()`. -/
def isPySpace (c : Char) : Bool :=
  c = ' ' || c = '\t' || c = '\n' || c = '\r' || c = '\x0b' || c = '\x0c'

/-- Python `s.strip()`: remove leading and trailing whitespace. -/
def pyStrip (s : String) : String :=
  String.mk (((s.data.dropWhile isPySpace).reverse.dropWhile isPySpace).reverse)

/-- Split a character list at every occurrence of `c` (Python `str.split(c)`
semantics: no merging of separators, `""` splits to `[""]`). -/
def splitOnChar (c : Char) : List Char → List (List Char)
  | [] => [[]]
  | x :: xs =>
    if x = c then [] :: splitOnChar c xs
    else
      match splitOnChar c xs with
      | [] => [[x]]
      | y :: ys => (x :: y) :: ys

/-- Python `s.split("\t")`. -/
def pySplitTab (s : String) : List String :=
  (splitOnChar '\t' s.data).map String.mk

/-- Python `sep.join(xs)`. -/
def pyJoin (sep : String) : List String → String
  | [] => ""
  | [x] => x
  | x :: xs => x ++ sep ++ pyJoin sep xs

/-- Decimal value of a digit list. -/
def digitsToNat (ds : List Char) : Nat :=
  ds.foldl (fun n c => n * 10 + (c.toNat - 48)) 0

/-- Python `int(s)` (base 10): optional surrounding whitespace, optional
sign, then one or more decimal digits; any other shape raises `ValueError`
(modelled as `none`). -/
def pyInt? (s : String) : Option Int :=
  let t := (pyStrip s).data
  let neg : Bool := match t with
    | c :: _ => c = '-'
    | [] => false
  let ds : List Char := match t with
    | '-' :: rest => rest
    | '+' :: rest => rest
    | _ => t
  if ds ≠ [] ∧ ds.all Char.isDigit then
    some (if neg then -(digitsToNat ds : Int) else (digitsToNat ds : Int))
  else none

/-- Python `s.rstrip('-')`: remove every trailing `'-'`. -/
def rstripDash (s : String) : String :=
  String.mk ((s.data.reverse.dropWhile (fun c => c = '-')).reverse)

/-- Python `s[-1] == '-'` for nonempty `s` (the empty case raises
`IndexError`, handled at the call site). -/
def lastIsDash (s : String) : Bool :=
  match s.data.getLast? with
  | some c => c = '-'
  | none => false

/-- Python `s[:-1]`: drop the last character. -/
def dropLast1 (s : String) : String :=
  String.mk s.data.dropLast

/-! ## The Record (`BedLine`) -/

/-- One parsed BED record, mirroring `BedLine.__slots__`:
`seqid`, `start`, `end`, `accn`, `extra`, `score`, `strand`.
(`end` is a Lean keyword, hence `end_`.)  `extra`, `score`, `strand` are
`none` exactly when the Python attribute is `None`. -/
structure BedLine where
  seqid : String
  start : Int
  end_ : Int
  accn : String
  extra : Option (List String)
  score : Option String
  strand : Option String
deriving DecidableEq

/-- The exceptions `BedLine.__init__` can raise: the `assert` carries the
message `"start={0} end={1}"` (the spec's `FormatError`); a missing mandatory
column raises `IndexError`; a non-integer coordinate raises `ValueError`. -/
inductive ParseError where
  | formatError (msg : String)
  | indexError
  | valueError
deriving DecidableEq

/-- `BedLine.__init__(sline)`: split the stripped line on tabs; `start` is
`int(args[1]) + 1`, `end` is `int(args[2])`; `assert start <= end` (raising
the message `"start={0} end={1}"`); `accn` is `args[3]`; columns beyond the
fourth are kept in `extra`, with `score` aliased to `extra[0]` and `strand`
to `extra[1]` when present.  The nested matches reproduce the source's
evaluation order: `args[1]` and `args[2]` are indexed and converted before
the assert, `args[3]` after it, so a 3-column line with bad coordinates
fails on the assert, not on the missing column. -/
def BedLine.parse (sline : String) : Except ParseError BedLine :=
  match pySplitTab (pyStrip sline) with
  | seqid :: c1 :: args2 =>
    match pyInt? c1 with
    | none => Except.error ParseError.valueError
    | some s1 =>
      match args2 with
      | c2 :: args3 =>
        match pyInt? c2 with
        | none => Except.error ParseError.valueError
        | some e1 =>
          if s1 + 1 ≤ e1 then
            match args3 with
            | accn :: extraCols =>
              Except.ok {
                seqid := seqid
                start := s1 + 1
                end_ := e1
                accn := accn
                extra := if extraCols = [] then none else some extraCols
                score := if extraCols = [] then none else extraCols[0]?
                strand := if 1 < extraCols.length then extraCols[1]? else none }
            | [] => Except.error ParseError.indexError
          else
            Except.error (ParseError.formatError
              ("start=" ++ toString (s1 + 1) ++ " end=" ++ toString e1))
      | [] => Except.error ParseError.indexError
  | _ => Except.error ParseError.indexError

/-- `BedLine.__str__`: tab-join `seqid`, `start - 1`, `end`, `accn`, then
append the tab-joined `extra` fields when `extra` is truthy. -/
def BedLine.str (b : BedLine) : String :=
  let s := pyJoin "\t" [b.seqid, toString (b.start - 1), toString b.end_, b.accn]
  match b.extra with
  | some ex => if ex.isEmpty then s else s ++ "\t" ++ pyJoin "\t" ex
  | none => s

/-- The exceptions `BedLine.reverse_complement` can raise: `sizes.get_size`
on an unknown seqid (the spec's `NotFound`); `seqid[-1]` on an empty seqid
(`IndexError`); the re-validation `assert` (message as in `__init__`);
`{'+': '-', '-': '+'}[strand]` on any other strand value (`KeyError`);
`extra[1] = strand` when `extra` is `None` (`TypeError`) or too short
(`IndexError`). -/
inductive RCError where
  | notFound
  | indexError
  | typeError
  | keyError
  | assertionError (msg : String)
deriving DecidableEq

/-- `BedLine.reverse_complement(sizes)`: look up the size of the
marker-stripped seqid (`seqid.rstrip('-')`); toggle the trailing `'-'`
marker; reflect the coordinates (`start = size - end + 1`,
`end = size - start + 1`); re-assert `start <= end`; if `strand` is truthy,
flip it and write the flipped value into `extra[1]`.  The mutation is
modelled by returning the updated record. -/
def BedLine.reverse_complement (b : BedLine) (sizes : String → Option Int) :
    Except RCError BedLine :=
  match sizes (rstripDash b.seqid) with
  | none => Except.error RCError.notFound
  | some size =>
    if b.seqid = "" then Except.error RCError.indexError
    else
      let newSeqid := if lastIsDash b.seqid then dropLast1 b.seqid else b.seqid ++ "-"
      let start := size - b.end_ + 1
      let stop := size - b.start + 1
      if start ≤ stop then
        match b.strand with
        | none => Except.ok { b with seqid := newSeqid, start := start, end_ := stop }
        | some st =>
          if st = "" then
            Except.ok { b with seqid := newSeqid, start := start, end_ := stop }
          else
            match (if st = "+" then some "-" else if st = "-" then some "+" else none) with
            | none => Except.error RCError.keyError
            | some flipped =>
              match b.extra with
              | none => Except.error RCError.typeError
              | some ex =>
                if 1 < ex.length then
                  Except.ok { b with
                    seqid := newSeqid
                    start := start
                    end_ := stop
                    strand := some flipped
                    extra := some (ex.set 1 flipped) }
                else Except.error RCError.indexError
      else
        Except.error (RCError.assertionError
          ("start=" ++ toString start ++ " end=" ++ toString stop))

/-! ## The Collection (`Bed`) -/

/-- Strict lexicographic comparison of character lists by code point:
Python string `<`. -/
def lexLt : List Char → List Char → Bool
  | [], [] => false
  | [], _ :: _ => true
  | _ :: _, [] => false
  | a :: as, b :: bs => if a < b then true else if b < a then false else lexLt as bs

/-- Non-strict lexicographic comparison of character lists by code point:
Python string `<=`. -/
def lexLe : List Char → List Char → Bool
  | [], _ => true
  | _ :: _, [] => false
  | a :: as, b :: bs => if a < b then true else if b < a then false else lexLe as bs

/-- Python string `<` (lexicographic by code point). -/
def strLt (a b : String) : Prop := lexLt a.data b.data = true

/-- Python string `<=` (lexicographic by code point). -/
def strLe (a b : String) : Prop := lexLe a.data b.data = true

instance : DecidableRel strLt := fun a b => instDecidableEqBool (lexLt a.data b.data) true

instance : DecidableRel strLe := fun a b => instDecidableEqBool (lexLe a.data b.data) true

/-- The default sort key of `Bed.__init__`: the ascending lexicographic
order of the Python tuple `(x.seqid, x.start, x.accn)`. -/
def keyRel (x y : BedLine) : Prop :=
  strLt x.seqid y.seqid ∨ (x.seqid = y.seqid ∧
    (x.start < y.start ∨ (x.start = y.start ∧ strLe x.accn y.accn)))

instance : DecidableRel keyRel := fun x y => by unfold keyRel; infer_instance

/-- The load loop of `Bed.__init__`: skip lines whose first character is
`'#'` (an empty line would raise `IndexError` at `line[0]`), parse every
other line, abort on the first failure. -/
def Bed.loadLines : List String → Except ParseError (List BedLine)
  | [] => Except.ok []
  | line :: rest =>
    match line.data with
    | [] => Except.error ParseError.indexError
    | c :: _ =>
      if c = '#' then Bed.loadLines rest
      else
        match BedLine.parse line with
        | Except.error e => Except.error e
        | Except.ok b =>
          match Bed.loadLines rest with
          | Except.error e => Except.error e
          | Except.ok bs => Except.ok (b :: bs)

/-- `Bed.__init__` with a caller-supplied key: load, then sort once with a
stable sort (Python `list.sort(key=...)` is stable; modelled by the stable
`List.insertionSort`). -/
def Bed.loadWith (lines : List String) (r : BedLine → BedLine → Prop)
    [DecidableRel r] : Except ParseError (List BedLine) :=
  match Bed.loadLines lines with
  | Except.error e => Except.error e
  | Except.ok recs => Except.ok (List.insertionSort r recs)

/-- `Bed.__init__` with the default key `(seqid, start, accn)`. -/
def Bed.load (lines : List String) : Except ParseError (List BedLine) :=
  Bed.loadWith lines keyRel

/-- `Bed.seqids`: `sorted(set(b.seqid for b in self))`. -/
def Bed.seqids (bed : List BedLine) : List String :=
  List.insertionSort strLe ((bed.map (fun b => b.seqid)).dedup)

/-- `Bed.accns`: `sorted(set(b.accn for b in self))`. -/
def Bed.accns (bed : List BedLine) : List String :=
  List.insertionSort strLe ((bed.map (fun b => b.accn)).dedup)

/-- `Bed.sub_bed(seqid)`: all records on one seqid, in collection order. -/
def Bed.sub_bed (bed : List BedLine) (seqid : String) : List BedLine :=
  bed.filter (fun b => b.seqid = seqid)

/-- `Bed.sub_beds`: one `(seqid, records)` group per distinct seqid, in
`seqids` order. -/
def Bed.sub_beds (bed : List BedLine) : List (String × List BedLine) :=
  (Bed.seqids bed).map (fun s => (s, Bed.sub_bed bed s))

/-- `Bed.simple_bed`: `[(b.seqid, i) for (i, b) in enumerate(self)]`. -/
def Bed.simple_bed (bed : List BedLine) : List (String × Nat) :=
  bed.enum.map (fun p => (p.2.seqid, p.1))

/-- Python `dict` insertion `m[k] = v`: replace the value of an existing
key in place, otherwise append the new binding. -/
def dictInsert {α : Type} (m : List (String × α)) (k : String) (v : α) :
    List (String × α) :=
  match m with
  | [] => [(k, v)]
  | (k0, v0) :: rest =>
    if k0 = k then (k0, v) :: rest else (k0, v0) :: dictInsert rest k v

/-- Python `dict` lookup `m[k]` (as an `Option`). -/
def dictLookup {α : Type} (m : List (String × α)) (k : String) : Option α :=
  match m with
  | [] => none
  | kv :: rest => if kv.1 = k then some kv.2 else dictLookup rest k

/-- `Bed.order`: `dict((f.accn, (i, f)) for (i, f) in enumerate(self))` —
a single left-to-right pass, so a repeated accession keeps only the last
`(position, record)` pair. -/
def Bed.order (bed : List BedLine) : List (String × (Nat × BedLine)) :=
  bed.enum.foldl (fun m p => dictInsert m p.2.accn (p.1, p.2)) []

/-- The value the last `(key, value)` pair with a given key would leave in
a left-to-right dict build (`none` when the key never occurs). -/
def lastVal {α : Type} : List (String × α) → String → Option α
  | [], _ => none
  | kv :: ps, a =>
    match lastVal ps a with
    | some v => some v
    | none => if kv.1 = a then some kv.2 else none

/-! ## Coverage (`Bed.sum` via `range_union`) -/

/-- Ascending order on `(start, end)` pairs: start ascending, tie-break end
ascending. -/
def ivRel (a b : Int × Int) : Prop := a.1 < b.1 ∨ (a.1 = b.1 ∧ a.2 ≤ b.2)

instance : DecidableRel ivRel := fun a b => by unfold ivRel; infer_instance

/-- Modelled from the spec: the sweep of `range_union` (from
`jcvi.utils.range`, whose source is not part of this slice).  Maintaining a
current merged interval `[curStart, curEnd]`, each next interval with
`start <= curEnd + 1` (overlapping or touching under closed-interval
semantics) extends `curEnd`; otherwise the current piece's length
`curEnd - curStart + 1` is flushed and a new piece begins; the final piece
is flushed at the end. -/
def mergeSweep : Int → Int → List (Int × Int) → Int
  | curStart, curEnd, [] => curEnd - curStart + 1
  | curStart, curEnd, (s, e) :: rest =>
    if s ≤ curEnd + 1 then mergeSweep curStart (max curEnd e) rest
    else (curEnd - curStart + 1) + mergeSweep s e rest

/-- Modelled from the spec: the per-seqid total of `range_union` — sort the
group's `(start, end)` pairs by start ascending (tie-break end ascending)
and sweep once. -/
def groupTotal (ivs : List (Int × Int)) : Int :=
  match List.insertionSort ivRel ivs with
  | [] => 0
  | (s, e) :: rest => mergeSweep s e rest

/-- Modelled from the spec: `range_union` from `jcvi.utils.range` (not in
this source slice).  Group the `(seqid, start, end)` triples by seqid, take
the per-seqid merged total, and sum across seqids. -/
def range_union (ranges : List (String × Int × Int)) : Int :=
  let sids := List.insertionSort strLe ((ranges.map (fun r => r.1)).dedup)
  (sids.map (fun sid =>
    groupTotal ((ranges.filter (fun r => r.1 = sid)).map (fun r => (r.2.1, r.2.2))))).sum

/-- `Bed.sum`: `range_union([(x.seqid, x.start, x.end) for x in self])`. -/
def Bed.sum (bed : List BedLine) : Int :=
  range_union (bed.map (fun x => (x.seqid, x.start, x.end_)))

/-- The set of integer points covered by a list of closed intervals: the
union `⋃ [s, e]`.  This is the spec's notion of "the union of the
intervals, overlapping regions counted once", used to state what the
merged-piece total of `range_union` must equal. -/
def coveredPoints (ivs : List (Int × Int)) : Finset Int :=
  ivs.foldr (fun iv acc => Finset.Icc iv.1 iv.2 ∪ acc) ∅

/-- A convenience constructor for concrete test records: the first four
fields with no trailing columns. -/
def mkRec (seqid : String) (start end_ : Int) (accn : String) : BedLine :=
  { seqid := seqid, start := start, end_ := end_, accn := accn,
    extra := none, score := none, strand := none }

/-- The effect of one reversal on the `strand` field: `+` and `-` are
swapped, a falsy or foreign value is untouched (the latter would in fact
raise, but this function is only consulted under `strandOK`). -/
def flipStrand (o : Option String) : Option String :=
  match o with
  | some st => if st = "+" then some "-" else if st = "-" then some "+" else some st
  | none => none

/-- The precondition under which `reverse_complement` completes its strand
handling: the strand is unset (`None`), falsy (`""`), or a proper `+`/`-`
backed by itself at position 1 of a long-enough `extra`. -/
def strandOK (b : BedLine) : Prop :=
  b.strand = none ∨ b.strand = some "" ∨
    ((b.strand = some "+" ∨ b.strand = some "-") ∧
      ∃ ex, b.extra = some ex ∧ 1 < ex.length)

/-! ## Theorems -/

/-- Every successfully parsed record satisfies the coordinate invariant
`start <= end`: the only `Except.ok` branch of `parse` sits under the
assert's positive case. -/
theorem parse_ok_start_le_end (sline : String) (r : BedLine)
    (h : BedLine.parse sline = Except.ok r) : r.start ≤ r.end_ := by
  unfold BedLine.parse at h
  repeat' split at h
  all_goals first
    | (injection h with h2; subst h2; assumption)
    | injection h

/-- Reduction of `parse` on a line whose first four columns are known and
whose coordinate columns are integers: everything except the assert is
determined. -/
theorem parse_reduction
    (sline seqid c1 c2 accn : String) (extraCols : List String) (s0 e0 : Int)
    (hsplit : pySplitTab (pyStrip sline) = seqid :: c1 :: c2 :: accn :: extraCols)
    (h1 : pyInt? c1 = some s0) (h2 : pyInt? c2 = some e0) :
    BedLine.parse sline =
      (if s0 + 1 ≤ e0 then Except.ok
        { seqid := seqid, start := s0 + 1, end_ := e0, accn := accn,
          extra := if extraCols = [] then none else some extraCols,
          score := if extraCols = [] then none else extraCols[0]?,
          strand := if 1 < extraCols.length then extraCols[1]? else none }
       else Except.error (ParseError.formatError
        ("start=" ++ toString (s0 + 1) ++ " end=" ++ toString e0))) := by
  simp only [BedLine.parse, hsplit, h1, h2]

/-- C1: for every input line whose first four tab-separated columns are
`seqid`, an integer `file_start`, an integer `file_end`, and `accn` (and
which passes validation), parsing produces a record with internal
`start = file_start + 1` and internal `end = file_end` unchanged, turning
the file's half-open zero-based `[file_start, file_end)` into a closed
one-based `[start, end]`. -/
theorem parse_converts_half_open_to_closed
    (sline seqid c1 c2 accn : String) (extraCols : List String) (s0 e0 : Int)
    (hsplit : pySplitTab (pyStrip sline) = seqid :: c1 :: c2 :: accn :: extraCols)
    (h1 : pyInt? c1 = some s0) (h2 : pyInt? c2 = some e0)
    (hle : s0 + 1 ≤ e0) :
    ∃ r, BedLine.parse sline = Except.ok r ∧
      r.start = s0 + 1 ∧ r.end_ = e0 ∧ r.seqid = seqid ∧ r.accn = accn := by
  have hp := parse_reduction sline seqid c1 c2 accn extraCols s0 e0 hsplit h1 h2
  rw [if_pos hle] at hp
  exact ⟨_, hp, rfl, rfl, rfl, rfl⟩

/-- Witness for C1 on the concrete line `chr1 0 5 g1`. -/
theorem parse_converts_half_open_to_closed_witness :
    ∃ r, BedLine.parse "chr1\t0\t5\tg1" = Except.ok r ∧
      r.start = (0 : Int) + 1 ∧ r.end_ = 5 ∧ r.seqid = "chr1" ∧ r.accn = "g1" :=
  parse_converts_half_open_to_closed "chr1\t0\t5\tg1" "chr1" "0" "5" "g1" [] 0 5
    (by decide) (by decide) (by decide) (by decide)

/-- C2: for a 4+-column line with integer coordinates, parsing fails with
the `FormatError` message `"start={start} end={end}"` exactly when the
converted coordinates violate `start <= end`, succeeds otherwise, and every
record that exists satisfies `start <= end`. -/
theorem parse_fails_iff_start_gt_end
    (sline seqid c1 c2 accn : String) (extraCols : List String) (s0 e0 : Int)
    (hsplit : pySplitTab (pyStrip sline) = seqid :: c1 :: c2 :: accn :: extraCols)
    (h1 : pyInt? c1 = some s0) (h2 : pyInt? c2 = some e0) :
    (BedLine.parse sline = Except.error (ParseError.formatError
        ("start=" ++ toString (s0 + 1) ++ " end=" ++ toString e0)) ↔ ¬ (s0 + 1 ≤ e0))
    ∧ ((s0 + 1 ≤ e0) → ∃ r, BedLine.parse sline = Except.ok r)
    ∧ (∀ (l : String) (r : BedLine), BedLine.parse l = Except.ok r → r.start ≤ r.end_) := by
  have hred := parse_reduction sline seqid c1 c2 accn extraCols s0 e0 hsplit h1 h2
  refine ⟨?_, ?_, fun l r => parse_ok_start_le_end l r⟩
  · by_cases hle : s0 + 1 ≤ e0
    · rw [hred, if_pos hle]
      simp [hle]
    · rw [hred, if_neg hle]
      simp [hle]
  · intro hle
    rw [hred, if_pos hle]
    exact ⟨_, rfl⟩

/-- Witness for C2 on the concrete line `chr1 10 5 g1` (file coordinates
`start0=10, end0=5`): parsing fails with `FormatError "start=11 end=5"`. -/
theorem parse_fails_iff_start_gt_end_witness :
    BedLine.parse "chr1\t10\t5\tg1" = Except.error (ParseError.formatError
      ("start=" ++ toString ((10 : Int) + 1) ++ " end=" ++ toString (5 : Int))) :=
  (parse_fails_iff_start_gt_end "chr1\t10\t5\tg1" "chr1" "10" "5" "g1" [] 10 5
    (by decide) (by decide) (by decide)).1.mpr (by decide)

/-- `pyJoin` on a list with at least two elements. -/
theorem pyJoin_cons (sep x : String) (l : List String) (h : l ≠ []) :
    pyJoin sep (x :: l) = x ++ sep ++ pyJoin sep l := by
  cases l with
  | nil => exact absurd rfl h
  | cons y ys => rfl

/-- `splitOnChar` never returns the empty list of pieces. -/
theorem splitOnChar_ne_nil (c : Char) (l : List Char) : splitOnChar c l ≠ [] := by
  induction l with
  | nil => simp [splitOnChar]
  | cons x xs ih =>
    by_cases h : x = c
    · simp [splitOnChar, h]
    · simp only [splitOnChar, if_neg h]
      cases hs : splitOnChar c xs with
      | nil => simp
      | cons y ys => simp

/-- Joining the pieces of a split recovers the original characters
(`"\t".join(s.split("\t")) == s`). -/
theorem pyJoin_splitOnChar (l : List Char) :
    (pyJoin "\t" ((splitOnChar '\t' l).map String.mk)).data = l := by
  induction l with
  | nil => rfl
  | cons x xs ih =>
    obtain ⟨y, ys, hys⟩ : ∃ y ys, splitOnChar '\t' xs = y :: ys := by
      cases hs : splitOnChar '\t' xs with
      | nil => exact absurd hs (splitOnChar_ne_nil _ _)
      | cons y ys => exact ⟨y, ys, rfl⟩
    rw [hys] at ih
    by_cases h : x = '\t'
    · subst h
      have e1 : splitOnChar '\t' ('\t' :: xs) = [] :: y :: ys := by
        simp [splitOnChar, hys]
      rw [e1]
      simp only [List.map_cons]
      rw [pyJoin_cons _ _ _ (by simp)]
      simp only [String.data_append]
      simp only [List.map_cons] at ih
      rw [ih]
      rfl
    · have e1 : splitOnChar '\t' (x :: xs) = (x :: y) :: ys := by
        simp [splitOnChar, h, hys]
      rw [e1]
      cases ys with
      | nil =>
        simp only [List.map_cons, List.map_nil, pyJoin] at ih ⊢
        rw [ih]
      | cons z zs =>
        simp only [List.map_cons] at ih ⊢
        rw [pyJoin_cons _ _ _ (by simp)] at ih
        rw [pyJoin_cons _ _ _ (by simp)]
        simp only [String.data_append] at ih ⊢
        rw [← ih]
        simp

/-- `"\t".join(s.split("\t")) == s` at the string level. -/
theorem pyJoin_pySplitTab (s : String) : pyJoin "\t" (pySplitTab s) = s := by
  apply String.ext
  exact pyJoin_splitOnChar s.data

/-- Counterexample to C3 as stated: the 4-column line `chr1 007 10 g1` has
integer coordinate columns, parses successfully, but serializing re-emits
the coordinate as `7`, so the round trip does not reproduce the
(whitespace-trimmed) line exactly. -/
theorem str_parse_not_identity_on_noncanonical :
    (BedLine.parse "chr1\t007\t10\tg1").map BedLine.str = Except.ok "chr1\t7\t10\tg1"
    ∧ pyStrip "chr1\t007\t10\tg1" = "chr1\t007\t10\tg1"
    ∧ ("chr1\t7\t10\tg1" : String) ≠ "chr1\t007\t10\tg1" := by decide

/-- C3 (amended): for every well-formed 4+-column line whose two coordinate
columns are written canonically (the decimal rendering of their integer
value), serializing the parsed record reproduces the whitespace-trimmed
line exactly: seqid, `start - 1`, `end`, `accn`, then every extra column
verbatim, tab-separated. -/
theorem str_parse_round_trip
    (sline seqid c1 c2 accn : String) (extraCols : List String) (s0 e0 : Int)
    (hsplit : pySplitTab (pyStrip sline) = seqid :: c1 :: c2 :: accn :: extraCols)
    (h1 : pyInt? c1 = some s0) (hc1 : toString s0 = c1)
    (h2 : pyInt? c2 = some e0) (hc2 : toString e0 = c2)
    (hle : s0 + 1 ≤ e0) :
    ∃ r, BedLine.parse sline = Except.ok r ∧ BedLine.str r = pyStrip sline := by
  have hp := parse_reduction sline seqid c1 c2 accn extraCols s0 e0 hsplit h1 h2
  rw [if_pos hle] at hp
  refine ⟨_, hp, ?_⟩
  have hjoin : pyJoin "\t" (seqid :: c1 :: c2 :: accn :: extraCols) = pyStrip sline := by
    rw [← hsplit]
    exact pyJoin_pySplitTab (pyStrip sline)
  rw [← hjoin]
  cases extraCols with
  | nil =>
    show BedLine.str _ = _
    simp only [BedLine.str]
    simp [Int.add_sub_cancel, hc1, hc2]
  | cons z zs =>
    show BedLine.str _ = _
    simp only [BedLine.str]
    simp only [reduceCtorEq, if_false, List.isEmpty_cons, Bool.false_eq_true,
      Int.add_sub_cancel, hc1, hc2]
    rw [pyJoin_cons "\t" seqid (c1 :: c2 :: accn :: z :: zs) (by simp)]
    rw [pyJoin_cons "\t" c1 (c2 :: accn :: z :: zs) (by simp)]
    rw [pyJoin_cons "\t" c2 (accn :: z :: zs) (by simp)]
    rw [pyJoin_cons "\t" accn (z :: zs) (by simp)]
    simp only [pyJoin]
    apply String.ext
    simp [String.data_append]

/-- Witness for the amended C3 on the concrete 6-column line
`chr1 0 5 g1 sc +`. -/
theorem str_parse_round_trip_witness :
    ∃ r, BedLine.parse "chr1\t0\t5\tg1\tsc\t+" = Except.ok r ∧
      BedLine.str r = pyStrip "chr1\t0\t5\tg1\tsc\t+" :=
  str_parse_round_trip "chr1\t0\t5\tg1\tsc\t+" "chr1" "0" "5" "g1" ["sc", "+"] 0 5
    (by decide) (by decide) (by decide) (by decide) (by decide) (by decide)

/-- A `dropWhile` whose head (if any) fails the predicate is the identity. -/
theorem dropWhile_eq_self_of_head_not (p : Char → Bool) (l : List Char)
    (h : ∀ c, l.head? = some c → p c = false) : l.dropWhile p = l := by
  cases l with
  | nil => rfl
  | cons c t => exact List.dropWhile_cons_of_neg (by simp [h c rfl])

/-- `rstrip('-')` is the identity on a string not ending in the marker. -/
theorem rstripDash_eq_self (x : String) (hx : lastIsDash x = false) :
    rstripDash x = x := by
  apply String.ext
  show (x.data.reverse.dropWhile (fun c => c = '-')).reverse = x.data
  have hdw := dropWhile_eq_self_of_head_not (fun c => c = '-') x.data.reverse (by
    intro c hc
    have hlast : x.data.getLast? = some c := by
      rw [← List.head?_reverse]; exact hc
    unfold lastIsDash at hx
    rw [hlast] at hx
    exact hx)
  rw [hdw, List.reverse_reverse]

/-- The character data of `x ++ "-"`. -/
theorem data_append_dash (x : String) : (x ++ "-").data = x.data ++ ['-'] := by
  rw [String.data_append]

/-- `x ++ "-"` ends in the marker. -/
theorem lastIsDash_append_dash (x : String) : lastIsDash (x ++ "-") = true := by
  unfold lastIsDash
  rw [data_append_dash, List.getLast?_concat]
  decide

/-- Stripping the marker from `x ++ "-"` recovers `x` when `x` itself does
not end in the marker. -/
theorem rstripDash_append_dash (x : String) (hx : lastIsDash x = false) :
    rstripDash (x ++ "-") = x := by
  apply String.ext
  show ((x ++ "-").data.reverse.dropWhile (fun c => c = '-')).reverse = x.data
  rw [data_append_dash, List.reverse_append]
  simp only [List.reverse_cons, List.reverse_nil, List.nil_append, List.singleton_append]
  rw [List.dropWhile_cons_of_pos (by decide)]
  have hdw := dropWhile_eq_self_of_head_not (fun c => c = '-') x.data.reverse (by
    intro c hc
    have hlast : x.data.getLast? = some c := by
      rw [← List.head?_reverse]; exact hc
    unfold lastIsDash at hx
    rw [hlast] at hx
    exact hx)
  rw [hdw, List.reverse_reverse]

/-- Dropping the last character of `x ++ "-"` recovers `x`. -/
theorem dropLast1_append_dash (x : String) : dropLast1 (x ++ "-") = x := by
  apply String.ext
  show (x ++ "-").data.dropLast = x.data
  rw [data_append_dash, List.dropLast_concat]

/-- `x ++ "-"` is not the empty string. -/
theorem append_dash_ne_empty (x : String) : x ++ "-" ≠ "" := by
  intro h
  have := congrArg String.data h
  rw [data_append_dash] at this
  simp at this

/-- Evaluation of `reverse_complement` when `strand` is `None`. -/
theorem reverse_complement_eval_strand_none
    (b : BedLine) (sizes : String → Option Int) (size : Int)
    (hsz : sizes (rstripDash b.seqid) = some size) (hne : b.seqid ≠ "")
    (hse : b.start ≤ b.end_) (hstr : b.strand = none) :
    BedLine.reverse_complement b sizes = Except.ok { b with
      seqid := if lastIsDash b.seqid then dropLast1 b.seqid else b.seqid ++ "-",
      start := size - b.end_ + 1, end_ := size - b.start + 1 } := by
  simp only [BedLine.reverse_complement, hsz, hstr]
  rw [if_neg hne, if_pos (show size - b.end_ + 1 ≤ size - b.start + 1 by omega)]

/-- Evaluation of `reverse_complement` when `strand` is the falsy empty
string: the strand is left untouched. -/
theorem reverse_complement_eval_strand_falsy
    (b : BedLine) (sizes : String → Option Int) (size : Int)
    (hsz : sizes (rstripDash b.seqid) = some size) (hne : b.seqid ≠ "")
    (hse : b.start ≤ b.end_) (hstr : b.strand = some "") :
    BedLine.reverse_complement b sizes = Except.ok { b with
      seqid := if lastIsDash b.seqid then dropLast1 b.seqid else b.seqid ++ "-",
      start := size - b.end_ + 1, end_ := size - b.start + 1 } := by
  simp only [BedLine.reverse_complement, hsz, hstr]
  rw [if_neg hne, if_pos (show size - b.end_ + 1 ≤ size - b.start + 1 by omega)]
  simp

/-- Evaluation of `reverse_complement` when `strand` is `+` or `-`: the
strand is flipped and the flipped value written into `extra[1]`. -/
theorem reverse_complement_eval_strand_set
    (b : BedLine) (sizes : String → Option Int) (size : Int)
    (st : String) (ex : List String)
    (hsz : sizes (rstripDash b.seqid) = some size) (hne : b.seqid ≠ "")
    (hse : b.start ≤ b.end_) (hstr : b.strand = some st)
    (hpm : st = "+" ∨ st = "-") (hex : b.extra = some ex) (hlen : 1 < ex.length) :
    BedLine.reverse_complement b sizes = Except.ok { b with
      seqid := if lastIsDash b.seqid then dropLast1 b.seqid else b.seqid ++ "-",
      start := size - b.end_ + 1, end_ := size - b.start + 1,
      strand := some (if st = "+" then "-" else "+"),
      extra := some (ex.set 1 (if st = "+" then "-" else "+")) } := by
  rcases hpm with h | h <;> subst h <;>
    (simp only [BedLine.reverse_complement, hsz, hstr, hex]
     rw [if_neg hne, if_pos (show size - b.end_ + 1 ≤ size - b.start + 1 by omega)]
     simp [hlen])

/-- Evaluation of `reverse_complement` when the size lookup fails: the
`NotFound` failure is propagated. -/
theorem reverse_complement_eval_notFound
    (b : BedLine) (sizes : String → Option Int)
    (h : sizes (rstripDash b.seqid) = none) :
    BedLine.reverse_complement b sizes = Except.error RCError.notFound := by
  simp [BedLine.reverse_complement, h]

/-- C10: for every record satisfying the invariant `start <= end` and every
size lookup (including one returning a size smaller than the record's
`end`), the post-reversal re-validation always succeeds: the assert branch
of `reverse_complement` is unreachable, so it cannot detect a too-small
size — as the second conjunct shows concretely, a record `[5, 10]` reversed
against size `3` silently becomes the non-positive `[-6, -1]`. -/
theorem reverse_complement_assert_unreachable :
    (∀ (b : BedLine) (sizes : String → Option Int), b.start ≤ b.end_ →
      ∀ msg, BedLine.reverse_complement b sizes ≠ Except.error (RCError.assertionError msg))
    ∧ (mkRec "chr1" 5 10 "g").reverse_complement (fun _ => some 3) =
        Except.ok (mkRec "chr1-" (-6) (-1) "g") := by
  constructor
  · intro b sizes hse msg hcontra
    unfold BedLine.reverse_complement at hcontra
    dsimp only at hcontra
    repeat' split at hcontra
    all_goals try contradiction
    all_goals try omega
    all_goals simp_all
  · decide

/-- Witness for C10: concretely, reversing `[2, 5]` against size `1` does
not hit the assert. -/
theorem reverse_complement_assert_unreachable_witness :
    BedLine.reverse_complement (mkRec "c" 2 5 "g") (fun _ => some 1) ≠
      Except.error (RCError.assertionError "start=-3 end=0") :=
  reverse_complement_assert_unreachable.1 (mkRec "c" 2 5 "g") (fun _ => some 1)
    (by decide) "start=-3 end=0"

/-- C6: `reverse_complement` strips the trailing `-` marker when present
and appends it when absent; the new coordinates are
`new_start = size - end + 1` and `new_end = size - start + 1` with `size`
looked up for the marker-stripped seqid (propagating `NotFound`); a set
strand is flipped between `+` and `-` with the flipped value also written
into position 1 of `extra`, while an unset strand is left untouched. -/
theorem reverse_complement_spec
    (b : BedLine) (sizes : String → Option Int) (size : Int)
    (hsz : sizes (rstripDash b.seqid) = some size)
    (hne : b.seqid ≠ "")
    (hse : b.start ≤ b.end_) :
    (b.strand = none →
      BedLine.reverse_complement b sizes = Except.ok { b with
        seqid := if lastIsDash b.seqid then dropLast1 b.seqid else b.seqid ++ "-",
        start := size - b.end_ + 1, end_ := size - b.start + 1 })
    ∧ (∀ st ex, b.strand = some st → (st = "+" ∨ st = "-") →
        b.extra = some ex → 1 < ex.length →
        BedLine.reverse_complement b sizes = Except.ok { b with
          seqid := if lastIsDash b.seqid then dropLast1 b.seqid else b.seqid ++ "-",
          start := size - b.end_ + 1, end_ := size - b.start + 1,
          strand := some (if st = "+" then "-" else "+"),
          extra := some (ex.set 1 (if st = "+" then "-" else "+")) })
    ∧ (∀ (b2 : BedLine) (sizes2 : String → Option Int),
        sizes2 (rstripDash b2.seqid) = none →
        BedLine.reverse_complement b2 sizes2 = Except.error RCError.notFound) := by
  refine ⟨?_, ?_, ?_⟩
  · intro hstr
    exact reverse_complement_eval_strand_none b sizes size hsz hne hse hstr
  · intro st ex hstr hpm hex hlen
    exact reverse_complement_eval_strand_set b sizes size st ex hsz hne hse hstr hpm hex hlen
  · intro b2 sizes2 h
    exact reverse_complement_eval_notFound b2 sizes2 h

/-- Witness for C6 on a concrete stranded record. -/
theorem reverse_complement_spec_witness :
    BedLine.reverse_complement
      { seqid := "chr1", start := 11, end_ := 20, accn := "g",
        extra := some ["sc", "+"], score := some "sc", strand := some "+" }
      (fun s => if s = "chr1" then some 100 else none)
      = Except.ok
      { seqid := "chr1-", start := 81, end_ := 90, accn := "g",
        extra := some ["sc", "-"], score := some "sc", strand := some "-" } := by
  have h := (reverse_complement_spec
      { seqid := "chr1", start := 11, end_ := 20, accn := "g",
        extra := some ["sc", "+"], score := some "sc", strand := some "+" }
      (fun s => if s = "chr1" then some 100 else none) 100
      (by decide) (by decide) (by decide)).2.1 "+" ["sc", "+"]
      rfl (Or.inl rfl) rfl (by decide)
  rw [h]
  decide

/-- Flipping the strand twice is the identity. -/
theorem flipStrand_involutive (o : Option String) :
    flipStrand (flipStrand o) = o := by
  rcases o with _ | s
  · rfl
  · by_cases h1 : s = "+"
    · subst h1; rfl
    · by_cases h2 : s = "-"
      · subst h2; rfl
      · simp [flipStrand, h1, h2]

/-- Toggling the marker on a string without one appends it. -/
theorem toggle_of_not_dash (s : String) (h : lastIsDash s = false) :
    (if lastIsDash s then dropLast1 s else s ++ "-") = s ++ "-" := by
  rw [h]; simp

/-- Toggling the marker on `x ++ "-"` strips it back to `x`. -/
theorem toggle_of_append_dash (x : String) :
    (if lastIsDash (x ++ "-") then dropLast1 (x ++ "-") else (x ++ "-") ++ "-") = x := by
  rw [lastIsDash_append_dash]
  simp [dropLast1_append_dash]

/-- One reversal step, summarised: under `strandOK`, `reverse_complement`
succeeds, toggles the marker, reflects the coordinates, flips the strand,
and preserves `strandOK`. -/
theorem rc_step (b : BedLine) (sizes : String → Option Int) (size : Int)
    (hsz : sizes (rstripDash b.seqid) = some size) (hne : b.seqid ≠ "")
    (hse : b.start ≤ b.end_) (hok : strandOK b) :
    ∃ b1, BedLine.reverse_complement b sizes = Except.ok b1 ∧
      b1.seqid = (if lastIsDash b.seqid then dropLast1 b.seqid else b.seqid ++ "-") ∧
      b1.start = size - b.end_ + 1 ∧ b1.end_ = size - b.start + 1 ∧
      b1.strand = flipStrand b.strand ∧ strandOK b1 := by
  rcases hok with hstr | hstr | ⟨hpm, ex, hex, hlen⟩
  · refine ⟨_, reverse_complement_eval_strand_none b sizes size hsz hne hse hstr,
      rfl, rfl, rfl, ?_, ?_⟩
    · simp [hstr, flipStrand]
    · exact Or.inl (by simp [hstr])
  · refine ⟨_, reverse_complement_eval_strand_falsy b sizes size hsz hne hse hstr,
      rfl, rfl, rfl, ?_, ?_⟩
    · simp [hstr, flipStrand]
    · exact Or.inr (Or.inl (by simp [hstr]))
  · rcases hpm with h | h
    · refine ⟨_, reverse_complement_eval_strand_set b sizes size "+" ex hsz hne hse h
        (Or.inl rfl) hex hlen, rfl, rfl, rfl, ?_, ?_⟩
      · simp [h, flipStrand]
      · refine Or.inr (Or.inr ⟨Or.inr (by simp), ex.set 1 "-", by simp, ?_⟩)
        simp [hlen]
    · refine ⟨_, reverse_complement_eval_strand_set b sizes size "-" ex hsz hne hse h
        (Or.inr rfl) hex hlen, rfl, rfl, rfl, ?_, ?_⟩
      · simp [h, flipStrand]
      · refine Or.inr (Or.inr ⟨Or.inl (by simp), ex.set 1 "+", by simp, ?_⟩)
        simp [hlen]

/-- Counterexample to C7 as stated: the record `a--`, start 1, end 1 (size
lookup `a → 10`).  The first reversal yields seqid `a-`, the second seqid
`a`: the coordinates return to 1..1 but the seqid marker, present on the
original (`lastIsDash "a--" = true`), is absent afterwards
(`lastIsDash "a" = false`), so the original marker state is not restored. -/
theorem double_reverse_not_involutive_on_double_marker :
    ((mkRec "a--" 1 1 "g").reverse_complement
        (fun s => if s = "a" then some 10 else none)).bind
      (fun b1 => b1.reverse_complement (fun s => if s = "a" then some 10 else none))
      = Except.ok (mkRec "a" 1 1 "g")
    ∧ lastIsDash "a--" = true ∧ lastIsDash "a" = false := by decide

/-- C7 (amended): applying `reverse_complement` twice (same size lookup)
restores the seqid, the coordinates and the strand, provided the seqid
carries at most one trailing marker character (its marker-stripped base `x`
is nonempty and the seqid is `x` or `x ++ "-"`), the strand is unset, falsy
or a proper `+`/`-` with a long-enough `extra`, and the record satisfies
`start <= end`. -/
theorem double_reverse_complement_involutive
    (b : BedLine) (sizes : String → Option Int) (size : Int) (x : String)
    (hx : lastIsDash x = false) (hxne : x ≠ "")
    (hseq : b.seqid = x ∨ b.seqid = x ++ "-")
    (hsz : sizes x = some size)
    (hse : b.start ≤ b.end_)
    (hok : strandOK b) :
    ∃ b1 b2, BedLine.reverse_complement b sizes = Except.ok b1 ∧
      BedLine.reverse_complement b1 sizes = Except.ok b2 ∧
      b2.seqid = b.seqid ∧ b2.start = b.start ∧ b2.end_ = b.end_ ∧
      b2.strand = b.strand := by
  have hflip := flipStrand_involutive b.strand
  rcases hseq with hseq | hseq
  · have hne : b.seqid ≠ "" := by rw [hseq]; exact hxne
    have hsz1 : sizes (rstripDash b.seqid) = some size := by
      rw [hseq, rstripDash_eq_self x hx]; exact hsz
    obtain ⟨b1, h1, hseq1, hst1, hen1, hstr1, hok1⟩ :=
      rc_step b sizes size hsz1 hne hse hok
    have hseq1' : b1.seqid = x ++ "-" := by
      rw [hseq1, hseq]; exact toggle_of_not_dash x hx
    have hne1 : b1.seqid ≠ "" := by rw [hseq1']; exact append_dash_ne_empty x
    have hsz2 : sizes (rstripDash b1.seqid) = some size := by
      rw [hseq1', rstripDash_append_dash x hx]; exact hsz
    have hse1 : b1.start ≤ b1.end_ := by rw [hst1, hen1]; omega
    obtain ⟨b2, h2, hseq2, hst2, hen2, hstr2, _⟩ :=
      rc_step b1 sizes size hsz2 hne1 hse1 hok1
    refine ⟨b1, b2, h1, h2, ?_, ?_, ?_, ?_⟩
    · rw [hseq2, hseq1', hseq]
      exact toggle_of_append_dash x
    · rw [hst2, hen1]; omega
    · rw [hen2, hst1]; omega
    · rw [hstr2, hstr1]; exact hflip
  · have hne : b.seqid ≠ "" := by rw [hseq]; exact append_dash_ne_empty x
    have hsz1 : sizes (rstripDash b.seqid) = some size := by
      rw [hseq, rstripDash_append_dash x hx]; exact hsz
    obtain ⟨b1, h1, hseq1, hst1, hen1, hstr1, hok1⟩ :=
      rc_step b sizes size hsz1 hne hse hok
    have hseq1' : b1.seqid = x := by
      rw [hseq1, hseq]; exact toggle_of_append_dash x
    have hne1 : b1.seqid ≠ "" := by rw [hseq1']; exact hxne
    have hsz2 : sizes (rstripDash b1.seqid) = some size := by
      rw [hseq1', rstripDash_eq_self x hx]; exact hsz
    have hse1 : b1.start ≤ b1.end_ := by rw [hst1, hen1]; omega
    obtain ⟨b2, h2, hseq2, hst2, hen2, hstr2, _⟩ :=
      rc_step b1 sizes size hsz2 hne1 hse1 hok1
    refine ⟨b1, b2, h1, h2, ?_, ?_, ?_, ?_⟩
    · rw [hseq2, hseq1', hseq]
      exact toggle_of_not_dash x hx
    · rw [hst2, hen1]; omega
    · rw [hen2, hst1]; omega
    · rw [hstr2, hstr1]; exact hflip

/-- Witness for the amended C7 on a concrete stranded record. -/
theorem double_reverse_complement_involutive_witness :
    ∃ b1 b2, BedLine.reverse_complement
        { seqid := "chr2", start := 3, end_ := 8, accn := "g",
          extra := some ["9", "-"], score := some "9", strand := some "-" }
        (fun s => if s = "chr2" then some 50 else none) = Except.ok b1 ∧
      BedLine.reverse_complement b1
        (fun s => if s = "chr2" then some 50 else none) = Except.ok b2 ∧
      b2.seqid = "chr2" ∧ b2.start = 3 ∧ b2.end_ = 8 ∧ b2.strand = some "-" :=
  double_reverse_complement_involutive
    { seqid := "chr2", start := 3, end_ := 8, accn := "g",
      extra := some ["9", "-"], score := some "9", strand := some "-" }
    (fun s => if s = "chr2" then some 50 else none) 50 "chr2"
    (by decide) (by decide) (Or.inl rfl) (by decide) (by decide)
    (Or.inr (Or.inr ⟨Or.inr rfl, ["9", "-"], rfl, by decide⟩))

/-- Looking a key up after a dict insertion: the inserted key returns the
new value, any other key is unaffected. -/
theorem dictLookup_dictInsert {α : Type} (m : List (String × α)) (k k' : String) (v : α) :
    dictLookup (dictInsert m k v) k' = if k = k' then some v else dictLookup m k' := by
  induction m with
  | nil =>
    by_cases h : k = k' <;> simp [dictInsert, dictLookup, h]
  | cons kv rest ih =>
    obtain ⟨k0, v0⟩ := kv
    by_cases h : k0 = k
    · subst h
      by_cases h2 : k0 = k' <;> simp [dictInsert, dictLookup, h2]
    · by_cases h2 : k0 = k'
      · subst h2
        have hk : ¬ k = k0 := fun he => h he.symm
        simp [dictInsert, dictLookup, h, hk]
      · simp [dictInsert, dictLookup, h, h2, ih]

/-- Looking up a key after a left fold of dict insertions: the last
inserted value for that key wins; if the key never occurs the original
dict answers. -/
theorem dictLookup_foldl_insert {α : Type} (ps : List (String × α))
    (m0 : List (String × α)) (a : String) :
    dictLookup (ps.foldl (fun m kv => dictInsert m kv.1 kv.2) m0) a =
      (match lastVal ps a with
       | some v => some v
       | none => dictLookup m0 a) := by
  induction ps generalizing m0 with
  | nil => simp [lastVal]
  | cons kv ps ih =>
    simp only [List.foldl_cons, lastVal]
    rw [ih]
    cases hl : lastVal ps a with
    | some v => simp
    | none =>
      simp only
      rw [dictLookup_dictInsert]
      by_cases h : kv.1 = a <;> simp [h]

/-- A `lastVal` hit is a pair of the list. -/
theorem lastVal_mem {α : Type} (ps : List (String × α)) (a : String) (v : α)
    (h : lastVal ps a = some v) : (a, v) ∈ ps := by
  induction ps with
  | nil => simp [lastVal] at h
  | cons kv ps ih =>
    simp only [lastVal] at h
    cases hl : lastVal ps a with
    | some w =>
      rw [hl] at h
      exact List.mem_cons_of_mem _ (ih (hl.trans h))
    | none =>
      rw [hl] at h
      by_cases hk : kv.1 = a
      · rw [if_pos hk] at h
        injection h with h2
        have hkv : kv = (a, v) := Prod.ext hk h2
        rw [hkv]
        exact List.mem_cons_self _ _
      · rw [if_neg hk] at h
        cases h

/-- C8: the `order` index maps each accession to the `(position, record)`
pair of the last record with that accession in a single left-to-right pass
over the collection (last write wins), and the position stored is the
0-based index of that record in the current order. -/
theorem order_last_wins (bed : List BedLine) (a : String) :
    (dictLookup (Bed.order bed) a =
      lastVal (bed.enum.map (fun p => (p.2.accn, (p.1, p.2)))) a)
    ∧ (∀ i f, dictLookup (Bed.order bed) a = some (i, f) →
        bed[i]? = some f ∧ f.accn = a) := by
  have hfold : Bed.order bed =
      (bed.enum.map (fun p => (p.2.accn, (p.1, p.2)))).foldl
        (fun m kv => dictInsert m kv.1 kv.2) [] := by
    rw [List.foldl_map]
    rfl
  have horder : dictLookup (Bed.order bed) a =
      lastVal (bed.enum.map (fun p => (p.2.accn, (p.1, p.2)))) a := by
    rw [hfold, dictLookup_foldl_insert]
    cases hl : lastVal (bed.enum.map (fun p => (p.2.accn, (p.1, p.2)))) a <;>
      simp [hl, dictLookup]
  refine ⟨horder, ?_⟩
  intro i f h
  rw [horder] at h
  have hmem := lastVal_mem _ _ _ h
  obtain ⟨p, hp, hpe⟩ := List.mem_map.mp hmem
  have h2 : (p.1, p.2) = (i, f) := congrArg Prod.snd hpe
  have h1 : p.2.accn = a := congrArg Prod.fst hpe
  rw [Prod.mk.eta] at h2
  subst h2
  have hix := List.mem_enum hp
  constructor
  · rw [hix.2]
    exact List.getElem?_eq_getElem hix.1
  · simpa using h1

/-- Witness for C8: with two records sharing accession `g1`, the index
keeps only the later one, at its 0-based position 2. -/
theorem order_last_wins_witness :
    dictLookup (Bed.order
      [mkRec "c" 1 2 "g1", mkRec "c" 3 4 "g2", mkRec "c" 5 6 "g1"]) "g1"
      = some (2, mkRec "c" 5 6 "g1") := by
  have h := (order_last_wins
    [mkRec "c" 1 2 "g1", mkRec "c" 3 4 "g2", mkRec "c" 5 6 "g1"] "g1").1
  rw [h]
  decide

/-- `lexLe` is `lexLt` or equality. -/
theorem lexLe_iff (l1 l2 : List Char) :
    lexLe l1 l2 = true ↔ (lexLt l1 l2 = true ∨ l1 = l2) := by
  induction l1 generalizing l2 with
  | nil => cases l2 <;> simp [lexLe, lexLt]
  | cons a as ih =>
    cases l2 with
    | nil => simp [lexLe, lexLt]
    | cons b bs =>
      by_cases hab : a < b
      · simp [lexLe, lexLt, hab]
      · by_cases hba : b < a
        · have hne : ¬ a = b := fun he => absurd (he ▸ hba) (lt_irrefl a)
          simp [lexLe, lexLt, hab, hba, hne]
        · have habeq : a = b := le_antisymm (not_lt.mp hba) (not_lt.mp hab)
          subst habeq
          simp [lexLe, lexLt, lt_irrefl, ih]

/-- Trichotomy for `lexLt`. -/
theorem lexLt_trichotomy (l1 l2 : List Char) :
    lexLt l1 l2 = true ∨ l1 = l2 ∨ lexLt l2 l1 = true := by
  induction l1 generalizing l2 with
  | nil =>
    cases l2 with
    | nil => right; left; rfl
    | cons b bs => left; rfl
  | cons a as ih =>
    cases l2 with
    | nil => right; right; rfl
    | cons b bs =>
      rcases lt_trichotomy a b with h | h | h
      · left; simp [lexLt, h]
      · subst h
        rcases ih bs with h2 | h2 | h2
        · left; simp [lexLt, lt_irrefl, h2]
        · right; left; rw [h2]
        · right; right; simp [lexLt, lt_irrefl, h2]
      · right; right; simp [lexLt, h]

/-- Transitivity for `lexLt`. -/
theorem lexLt_trans (l1 l2 l3 : List Char)
    (h12 : lexLt l1 l2 = true) (h23 : lexLt l2 l3 = true) : lexLt l1 l3 = true := by
  induction l1 generalizing l2 l3 with
  | nil =>
    cases l2 with
    | nil => simp [lexLt] at h12
    | cons b bs =>
      cases l3 with
      | nil => simp [lexLt] at h23
      | cons c cs => rfl
  | cons a as ih =>
    cases l2 with
    | nil => simp [lexLt] at h12
    | cons b bs =>
      cases l3 with
      | nil => simp [lexLt] at h23
      | cons c cs =>
        by_cases hab : a < b
        · by_cases hbc : b < c
          · simp [lexLt, lt_trans hab hbc]
          · by_cases hcb : c < b
            · simp [lexLt, hbc, hcb] at h23
            · have hbceq : b = c := le_antisymm (not_lt.mp hcb) (not_lt.mp hbc)
              subst hbceq
              simp [lexLt, hab]
        · by_cases hba : b < a
          · simp [lexLt, hab, hba] at h12
          · have habeq : a = b := le_antisymm (not_lt.mp hba) (not_lt.mp hab)
            subst habeq
            simp only [lexLt, lt_irrefl, if_false] at h12
            by_cases hac : a < c
            · simp [lexLt, hac]
            · by_cases hca : c < a
              · simp [lexLt, hac, hca] at h23
              · have haceq : a = c := le_antisymm (not_lt.mp hca) (not_lt.mp hac)
                subst haceq
                simp only [lexLt, lt_irrefl, if_false] at h23 ⊢
                exact ih bs cs h12 h23

/-- Totality of the Python string order. -/
theorem strLe_total (a b : String) : strLe a b ∨ strLe b a := by
  unfold strLe
  rcases lexLt_trichotomy a.data b.data with h | h | h
  · exact Or.inl ((lexLe_iff _ _).mpr (Or.inl h))
  · exact Or.inl ((lexLe_iff _ _).mpr (Or.inr h))
  · exact Or.inr ((lexLe_iff _ _).mpr (Or.inl h))

/-- Transitivity of the Python string order. -/
theorem strLe_trans (a b c : String) (h1 : strLe a b) (h2 : strLe b c) :
    strLe a c := by
  unfold strLe at *
  rcases (lexLe_iff _ _).mp h1 with h1 | h1
  · rcases (lexLe_iff _ _).mp h2 with h2 | h2
    · exact (lexLe_iff _ _).mpr (Or.inl (lexLt_trans _ _ _ h1 h2))
    · exact (lexLe_iff _ _).mpr (Or.inl (h2 ▸ h1))
  · rw [h1]
    exact h2

/-- Trichotomy of the Python string strict order. -/
theorem strLt_trichotomy (a b : String) : strLt a b ∨ a = b ∨ strLt b a := by
  unfold strLt
  rcases lexLt_trichotomy a.data b.data with h | h | h
  · exact Or.inl h
  · exact Or.inr (Or.inl (String.ext h))
  · exact Or.inr (Or.inr h)

/-- Transitivity of the Python string strict order. -/
theorem strLt_trans (a b c : String) (h1 : strLt a b) (h2 : strLt b c) :
    strLt a c := lexLt_trans _ _ _ h1 h2

/-- Grouping a list by a nodup, covering key list and re-concatenating is a
permutation of the original list. -/
theorem flatten_filter_perm (key : BedLine → String) (keys : List String)
    (l : List BedLine) (hnd : keys.Nodup) (hcov : ∀ x ∈ l, key x ∈ keys) :
    (keys.map (fun k => l.filter (fun x => key x = k))).flatten.Perm l := by
  induction keys generalizing l with
  | nil =>
    cases l with
    | nil => simp
    | cons x xs => exact absurd (hcov x (by simp)) (by simp)
  | cons k ks ih =>
    simp only [List.map_cons, List.flatten_cons]
    have hrw : ∀ k' ∈ ks, l.filter (fun x => key x = k') =
        (l.filter (fun x => !(key x = k))).filter (fun x => key x = k') := by
      intro k' hk'
      rw [List.filter_filter]
      apply List.filter_congr
      intro x hx
      by_cases h : key x = k'
      · have hne : ¬ k' = k := by
          intro he
          rw [he] at hk'
          exact (List.nodup_cons.mp hnd).1 hk'
        simp [h, hne]
      · simp [h]
    rw [List.map_congr_left hrw]
    have hcov' : ∀ x ∈ l.filter (fun x => !(key x = k)), key x ∈ ks := by
      intro x hx
      obtain ⟨hxl, hxk⟩ := List.mem_filter.mp hx
      simp only [Bool.not_eq_true', decide_eq_false_iff_not] at hxk
      rcases List.mem_cons.mp (hcov x hxl) with h | h
      · exact absurd h hxk
      · exact h
    have hperm := ih (l.filter (fun x => !(key x = k))) (List.nodup_cons.mp hnd).2 hcov'
    exact List.Perm.trans (hperm.append_left _)
      (List.filter_append_perm (fun x => key x = k) l)

/-- C9: `seqids` is the set of distinct seqid values in ascending lexical
order; `sub_bed s` yields exactly the records whose seqid is `s` in
collection order (a sublist of the collection); and concatenating
`sub_bed s` over all `s` in `seqids` reconstructs the full collection as a
partition, with no overlaps and no omissions (a permutation). -/
theorem seqids_sub_bed_partition (bed : List BedLine) :
    ((Bed.seqids bed).Pairwise strLe ∧ (Bed.seqids bed).Nodup)
    ∧ (∀ s, s ∈ Bed.seqids bed ↔ ∃ b ∈ bed, b.seqid = s)
    ∧ (∀ s, Bed.sub_bed bed s = bed.filter (fun b => b.seqid = s) ∧
        (Bed.sub_bed bed s).Sublist bed ∧
        (∀ b, b ∈ Bed.sub_bed bed s ↔ b ∈ bed ∧ b.seqid = s))
    ∧ ((Bed.seqids bed).map (fun s => Bed.sub_bed bed s)).flatten.Perm bed := by
  haveI : IsTotal String strLe := ⟨strLe_total⟩
  haveI : IsTrans String strLe := ⟨strLe_trans⟩
  have hsorted : (Bed.seqids bed).Pairwise strLe := by
    unfold Bed.seqids
    exact List.sorted_insertionSort strLe _
  have hnodup : (Bed.seqids bed).Nodup :=
    ((List.perm_insertionSort strLe _).nodup_iff).mpr (List.nodup_dedup _)
  have hmem : ∀ s, s ∈ Bed.seqids bed ↔ ∃ b ∈ bed, b.seqid = s := by
    intro s
    simp [Bed.seqids, List.mem_insertionSort, List.mem_dedup, List.mem_map]
  refine ⟨⟨hsorted, hnodup⟩, hmem, ?_, ?_⟩
  · intro s
    refine ⟨rfl, List.filter_sublist bed, ?_⟩
    intro b
    simp [Bed.sub_bed, List.mem_filter]
  · apply flatten_filter_perm (fun b => b.seqid) (Bed.seqids bed) bed hnodup
    intro x hx
    exact (hmem x.seqid).mpr ⟨x, hx, rfl⟩

/-- Witness for C9: the concrete partition property on a three-record bed. -/
theorem seqids_sub_bed_partition_witness :
    ((Bed.seqids [mkRec "d" 1 2 "x", mkRec "c" 1 2 "y", mkRec "d" 3 4 "z"]).map
      (fun s => Bed.sub_bed [mkRec "d" 1 2 "x", mkRec "c" 1 2 "y", mkRec "d" 3 4 "z"] s)).flatten.Perm
      [mkRec "d" 1 2 "x", mkRec "c" 1 2 "y", mkRec "d" 3 4 "z"] :=
  (seqids_sub_bed_partition _).2.2.2

/-- The default key order is total. -/
theorem keyRel_total (x y : BedLine) : keyRel x y ∨ keyRel y x := by
  unfold keyRel
  rcases strLt_trichotomy x.seqid y.seqid with h | h | h
  · exact Or.inl (Or.inl h)
  · rcases lt_trichotomy x.start y.start with h2 | h2 | h2
    · exact Or.inl (Or.inr ⟨h, Or.inl h2⟩)
    · rcases strLe_total x.accn y.accn with h3 | h3
      · exact Or.inl (Or.inr ⟨h, Or.inr ⟨h2, h3⟩⟩)
      · exact Or.inr (Or.inr ⟨h.symm, Or.inr ⟨h2.symm, h3⟩⟩)
    · exact Or.inr (Or.inr ⟨h.symm, Or.inl h2⟩)
  · exact Or.inr (Or.inl h)

/-- The default key order is transitive. -/
theorem keyRel_trans (x y z : BedLine) (h1 : keyRel x y) (h2 : keyRel y z) :
    keyRel x z := by
  unfold keyRel at *
  rcases h1 with h1 | ⟨e1, h1⟩
  · rcases h2 with h2 | ⟨e2, h2⟩
    · exact Or.inl (strLt_trans _ _ _ h1 h2)
    · exact Or.inl (by rw [← e2]; exact h1)
  · rcases h2 with h2 | ⟨e2, h2⟩
    · exact Or.inl (by rw [e1]; exact h2)
    · refine Or.inr ⟨e1.trans e2, ?_⟩
      rcases h1 with h1 | ⟨f1, h1⟩
      · rcases h2 with h2 | ⟨f2, h2⟩
        · exact Or.inl (lt_trans h1 h2)
        · exact Or.inl (by rw [← f2]; exact h1)
      · rcases h2 with h2 | ⟨f2, h2⟩
        · exact Or.inl (by rw [f1]; exact h2)
        · exact Or.inr ⟨f1.trans f2, strLe_trans _ _ _ h1 h2⟩

/-- C5: after loading, the collection is sorted under the configured key
(stably: any pair already ordered in load order keeps its relative order),
the sorted sequence is a permutation of the loaded records; the default key
is the ascending tuple `(seqid, start, accn)`; and loading the records
`("chr2",100,200,"g1"), ("chr1",50,80,"g2"), ("chr1",10,20,"g3")` with the
default key yields the order `g3, g2, g1`. -/
theorem load_sorted_stable :
    (∀ (lines : List String) (r : BedLine → BedLine → Prop) [DecidableRel r],
      (∀ a b, r a b ∨ r b a) → (∀ a b c, r a b → r b c → r a c) →
      ∀ (bed : List BedLine), Bed.loadWith lines r = Except.ok bed →
        bed.Pairwise r
        ∧ (∀ recs, Bed.loadLines lines = Except.ok recs →
            bed.Perm recs ∧
            (∀ sub : List BedLine, sub.Pairwise r → sub.Sublist recs → sub.Sublist bed)))
    ∧ (∀ x y, keyRel x y ↔
        (strLt x.seqid y.seqid ∨ (x.seqid = y.seqid ∧
          (x.start < y.start ∨ (x.start = y.start ∧ strLe x.accn y.accn)))))
    ∧ (Bed.load ["chr2\t100\t200\tg1", "chr1\t50\t80\tg2", "chr1\t10\t20\tg3"]).map
        (fun l => l.map (fun b => b.accn)) = Except.ok ["g3", "g2", "g1"] := by
  refine ⟨?_, fun x y => Iff.rfl, by decide⟩
  intro lines r inst htot htrans bed hload
  haveI : IsTotal BedLine r := ⟨htot⟩
  haveI : IsTrans BedLine r := ⟨fun a b c => htrans a b c⟩
  unfold Bed.loadWith at hload
  cases hl : Bed.loadLines lines with
  | error e => rw [hl] at hload; cases hload
  | ok recs =>
    rw [hl] at hload
    injection hload with hbed
    subst hbed
    refine ⟨List.sorted_insertionSort r recs, ?_⟩
    intro recs' hrecs'
    injection hrecs' with he
    subst he
    exact ⟨List.perm_insertionSort r recs,
      fun sub hp hs => List.sublist_insertionSort hp hs⟩

/-- Witness for C5: the concrete three-line load is sorted under the
default key. -/
theorem load_sorted_stable_witness :
    List.Pairwise keyRel
      [mkRec "chr1" 11 20 "g3", mkRec "chr1" 51 80 "g2", mkRec "chr2" 101 200 "g1"] :=
  (load_sorted_stable.1 ["chr2\t100\t200\tg1", "chr1\t50\t80\tg2", "chr1\t10\t20\tg3"]
    keyRel keyRel_total keyRel_trans
    [mkRec "chr1" 11 20 "g3", mkRec "chr1" 51 80 "g2", mkRec "chr2" 101 200 "g1"]
    (by decide)).1

/-- The interval order is total. -/
theorem ivRel_total (a b : Int × Int) : ivRel a b ∨ ivRel b a := by
  unfold ivRel
  omega

/-- The interval order is transitive. -/
theorem ivRel_trans (a b c : Int × Int) (h1 : ivRel a b) (h2 : ivRel b c) :
    ivRel a c := by
  unfold ivRel at *
  omega

/-- `coveredPoints` on a cons. -/
theorem coveredPoints_cons (iv : Int × Int) (ivs : List (Int × Int)) :
    coveredPoints (iv :: ivs) = Finset.Icc iv.1 iv.2 ∪ coveredPoints ivs := rfl

/-- Membership in the covered-point set. -/
theorem mem_coveredPoints (ivs : List (Int × Int)) (x : Int) :
    x ∈ coveredPoints ivs ↔ ∃ iv ∈ ivs, iv.1 ≤ x ∧ x ≤ iv.2 := by
  induction ivs with
  | nil => simp [coveredPoints]
  | cons iv ivs ih =>
    rw [coveredPoints_cons]
    simp [Finset.mem_union, Finset.mem_Icc, ih]

/-- The covered-point set only depends on the multiset of intervals. -/
theorem coveredPoints_perm (l l' : List (Int × Int)) (h : l.Perm l') :
    coveredPoints l = coveredPoints l' := by
  apply Finset.ext
  intro x
  simp only [mem_coveredPoints]
  constructor
  · rintro ⟨iv, hm, hx⟩
    exact ⟨iv, h.mem_iff.mp hm, hx⟩
  · rintro ⟨iv, hm, hx⟩
    exact ⟨iv, h.mem_iff.mpr hm, hx⟩

/-- The size of a nonempty closed integer interval, as an integer. -/
theorem card_Icc_int (a b : Int) (h : a ≤ b) :
    ((Finset.Icc a b).card : Int) = b - a + 1 := by
  rw [Int.card_Icc, Int.toNat_of_nonneg (by omega)]
  omega

/-- The sweep of `range_union` computes exactly the number of integer
points covered by the current merged interval together with the remaining
(start-sorted) intervals. -/
theorem mergeSweep_card (ivs : List (Int × Int)) : ∀ (cs ce : Int), cs ≤ ce →
    (∀ iv ∈ ivs, cs ≤ iv.1 ∧ iv.1 ≤ iv.2) →
    ivs.Pairwise (fun a b : Int × Int => a.1 ≤ b.1) →
    mergeSweep cs ce ivs = ((Finset.Icc cs ce ∪ coveredPoints ivs).card : Int) := by
  induction ivs with
  | nil =>
    intro cs ce hce _ _
    show ce - cs + 1 = _
    rw [show coveredPoints [] = (∅ : Finset Int) from rfl, Finset.union_empty,
      card_Icc_int cs ce hce]
  | cons iv rest ih =>
    intro cs ce hce hall hpw
    obtain ⟨s, e⟩ := iv
    have hcs_s : cs ≤ s := (hall (s, e) (by simp)).1
    have hse : s ≤ e := (hall (s, e) (by simp)).2
    have hall' : ∀ iv ∈ rest, cs ≤ iv.1 ∧ iv.1 ≤ iv.2 :=
      fun iv h => hall iv (by simp [h])
    have hs_rest : ∀ iv ∈ rest, s ≤ iv.1 :=
      fun iv h => (List.pairwise_cons.mp hpw).1 iv h
    have hpw' := (List.pairwise_cons.mp hpw).2
    rw [coveredPoints_cons]
    by_cases hmerge : s ≤ ce + 1
    · have e1 : mergeSweep cs ce ((s, e) :: rest) = mergeSweep cs (max ce e) rest := by
        simp only [mergeSweep, if_pos hmerge]
      rw [e1, ih cs (max ce e) (le_trans hce (le_max_left _ _)) hall' hpw']
      have hun : Finset.Icc cs (max ce e) ∪ coveredPoints rest
          = Finset.Icc cs ce ∪ (Finset.Icc s e ∪ coveredPoints rest) := by
        rw [← Finset.union_assoc]
        congr 1
        apply Finset.ext
        intro x
        simp only [Finset.mem_union, Finset.mem_Icc]
        omega
      rw [hun]
    · have e1 : mergeSweep cs ce ((s, e) :: rest)
          = (ce - cs + 1) + mergeSweep s e rest := by
        simp only [mergeSweep, if_neg hmerge]
      rw [e1, ih s e hse (fun iv h => ⟨hs_rest iv h, (hall' iv h).2⟩) hpw']
      have hdisj : Disjoint (Finset.Icc cs ce)
          (Finset.Icc s e ∪ coveredPoints rest) := by
        rw [Finset.disjoint_left]
        intro x hx hy
        rw [Finset.mem_Icc] at hx
        rw [Finset.mem_union, Finset.mem_Icc, mem_coveredPoints] at hy
        rcases hy with hy | ⟨iv, hm, hiv⟩
        · omega
        · have := hs_rest iv hm
          omega
      rw [Finset.card_union_of_disjoint hdisj]
      push_cast
      rw [card_Icc_int cs ce hce]

/-- The per-seqid total of `range_union` equals the number of integer
points covered by the union of the group's intervals. -/
theorem groupTotal_card (ivs : List (Int × Int))
    (hval : ∀ iv ∈ ivs, iv.1 ≤ iv.2) :
    groupTotal ivs = ((coveredPoints ivs).card : Int) := by
  haveI : IsTotal (Int × Int) ivRel := ⟨ivRel_total⟩
  haveI : IsTrans (Int × Int) ivRel := ⟨fun a b c => ivRel_trans a b c⟩
  have hperm := List.perm_insertionSort ivRel ivs
  have hsorted := List.sorted_insertionSort ivRel ivs
  unfold groupTotal
  cases hs : List.insertionSort ivRel ivs with
  | nil =>
    rw [hs] at hperm
    have hnil : ivs = [] := List.perm_nil.mp hperm.symm
    rw [hnil]
    show (0 : Int) = _
    rw [show coveredPoints [] = (∅ : Finset Int) from rfl]
    simp
  | cons iv rest =>
    obtain ⟨s, e⟩ := iv
    rw [hs] at hperm hsorted
    have hall : ∀ iv ∈ (s, e) :: rest, iv.1 ≤ iv.2 :=
      fun iv h => hval iv (hperm.mem_iff.mp h)
    have hse : s ≤ e := hall (s, e) (by simp)
    have hrest : ∀ iv ∈ rest, s ≤ iv.1 ∧ iv.1 ≤ iv.2 := by
      intro iv h
      refine ⟨?_, hall iv (by simp [h])⟩
      have hr := (List.pairwise_cons.mp hsorted).1 iv h
      unfold ivRel at hr
      omega
    have hpw : rest.Pairwise (fun a b : Int × Int => a.1 ≤ b.1) := by
      refine ((List.pairwise_cons.mp hsorted).2).imp ?_
      intro a b hab
      unfold ivRel at hab
      omega
    show mergeSweep s e rest = _
    rw [mergeSweep_card rest s e hse (fun iv h => hrest iv h) hpw]
    have hcv : coveredPoints ((s, e) :: rest) = Finset.Icc s e ∪ coveredPoints rest :=
      coveredPoints_cons (s, e) rest
    rw [← hcv, coveredPoints_perm _ _ hperm]

/-- C4: `Bed.sum` equals, for each distinct seqid independently, the number
of integer points covered by the union of that seqid's closed intervals
(overlapping or touching ranges counted once), summed across seqids —
and concretely `[1,10]` with `[11,20]` on one seqid sums to 20, `[1,10]`
with `[20,30]` sums to 21, and the empty collection sums to 0. -/
theorem sum_is_per_seqid_union (bed : List BedLine)
    (hv : ∀ b ∈ bed, b.start ≤ b.end_) :
    Bed.sum bed = ((Bed.seqids bed).map (fun s =>
      ((coveredPoints ((Bed.sub_bed bed s).map (fun b => (b.start, b.end_)))).card : Int))).sum
    ∧ Bed.sum [mkRec "chr1" 1 10 "a", mkRec "chr1" 11 20 "b"] = 20
    ∧ Bed.sum [mkRec "chr1" 1 10 "a", mkRec "chr1" 20 30 "b"] = 21
    ∧ Bed.sum ([] : List BedLine) = 0 := by
  refine ⟨?_, by decide, by decide, by decide⟩
  have hsid : ((bed.map (fun x => (x.seqid, x.start, x.end_))).map (fun r => r.1))
      = bed.map (fun b => b.seqid) := by
    rw [List.map_map]
    rfl
  have hflt : ∀ sid, ((bed.map (fun x => (x.seqid, x.start, x.end_))).filter
        (fun r => r.1 = sid)).map (fun r => (r.2.1, r.2.2))
      = (Bed.sub_bed bed sid).map (fun b => (b.start, b.end_)) := by
    intro sid
    rw [List.filter_map, List.map_map]
    rfl
  have key : Bed.sum bed = ((Bed.seqids bed).map (fun sid =>
      groupTotal ((Bed.sub_bed bed sid).map (fun b => (b.start, b.end_))))).sum := by
    unfold Bed.sum range_union
    rw [hsid]
    refine congrArg List.sum (List.map_congr_left ?_)
    intro sid _
    rw [hflt sid]
  rw [key]
  refine congrArg List.sum (List.map_congr_left ?_)
  intro sid _
  apply groupTotal_card
  intro iv hiv
  obtain ⟨b, hb, he⟩ := List.mem_map.mp hiv
  rw [← he]
  exact hv b (List.mem_filter.mp hb).1

/-- Witness for C4: the concrete overlap example `[1,10]` and `[5,15]`. -/
theorem sum_is_per_seqid_union_witness :
    Bed.sum [mkRec "c" 1 10 "a", mkRec "c" 5 15 "b"] =
      ((Bed.seqids [mkRec "c" 1 10 "a", mkRec "c" 5 15 "b"]).map (fun s =>
        ((coveredPoints ((Bed.sub_bed [mkRec "c" 1 10 "a", mkRec "c" 5 15 "b"] s).map
          (fun b => (b.start, b.end_)))).card : Int))).sum :=
  (sum_is_per_seqid_union _ (by decide)).1
